import Mathlib

/-!
Verification development for the forward-chaining propositional entailment
engine (`forwardChaining.py`).  The Python source is shallowly embedded:
strings are lists of characters, Python `dict`s are insertion-ordered
association lists, the `deque` work queue is a list, and the `run` loop is a
fuel-indexed recursion (a separate theorem shows a concrete fuel bound always
suffices, mirroring the guaranteed termination of the Python loop).
-/

namespace FwdChain

/-- Characters of a Python string. -/
abbrev Str := List Char

/-- Convert a Lean string literal to the embedded representation. -/
def strOf (s : String) : Str := s.toList

/-- Python `s.startswith(pat)`. -/
def startsWithCh (pat s : Str) : Bool := pat.isPrefixOf s

/-- Python `pat in s` (substring containment). -/
def containsCh (pat : Str) : Str → Bool
  | [] => pat.isPrefixOf []
  | c :: rest => pat.isPrefixOf (c :: rest) || containsCh pat rest

/-- Python `s.lstrip("~")`: remove all leading `~` characters. -/
def dropTildes (s : Str) : Str := s.dropWhile (fun c => c == '~')

/-- Python `s.strip()`: remove leading and trailing whitespace. -/
def trimCh (s : Str) : Str :=
  ((s.dropWhile Char.isWhitespace).reverse.dropWhile Char.isWhitespace).reverse

/-- Worker for `splitOnCh`; the fuel is the length of the scanned string,
which always suffices because every step consumes at least one character. -/
def splitGo (sep : Str) : Nat → Str → Str → List Str
  | _, [], acc => [acc.reverse]
  | 0, s, acc => [acc.reverse ++ s]
  | fuel + 1, c :: rest, acc =>
    if sep.isPrefixOf (c :: rest) then
      acc.reverse :: splitGo sep fuel (List.drop (sep.length - 1) rest) []
    else
      splitGo sep fuel rest (c :: acc)

/-- Python `s.split(sep)` for a non-empty separator. -/
def splitOnCh (sep s : Str) : List Str := splitGo sep s.length s []

/-- Python `s.split()` (split on whitespace runs, discarding empty pieces). -/
def splitWsCh (s : Str) : List Str :=
  (List.splitOnP Char.isWhitespace s).filter (fun t => !t.isEmpty)

/-- A premise literal: symbol together with its negation flag. -/
abbrev Premise := Str × Bool

/-- One rule body: premise literals plus the conclusion-negation flag. -/
abbrev Disjunct := List Premise × Bool

/-- `self.rules`: insertion-ordered map from conclusion symbol to disjuncts. -/
abbrev Rules := List (Str × List Disjunct)

/-- `self.facts`: insertion-ordered map from symbol to asserted polarity. -/
abbrev Facts := List (Str × Bool)

/-- Python dict assignment `d[k] = v`: update in place if the key exists
(keeping its position), otherwise append the new binding at the end. -/
def alSet (k : Str) (v : Bool) : Facts → Facts
  | [] => [(k, v)]
  | (k', v') :: rest => if k' == k then (k, v) :: rest else (k', v') :: alSet k v rest

/-- Python dict lookup `d[k]` (as an `Option`; `none` models `KeyError`). -/
def lookupAL (l : Facts) (k : Str) : Option Bool :=
  match l with
  | [] => none
  | (k', v) :: rest => if k' == k then some v else lookupAL rest k

/-- `self.rules[conclusion].append(d)`, creating the key if absent. -/
def addRule (k : Str) (d : Disjunct) : Rules → Rules
  | [] => [(k, [d])]
  | (k', ds) :: rest =>
    if k' == k then (k', ds ++ [d]) :: rest else (k', ds) :: addRule k d rest

/-- The body of the clause loop of `is_horn_form` (lines 25-60 of
`forwardChaining.py`): whether one clause passes its applicable check. -/
def hornClauseCheck (clause0 : Str) : Bool :=
  let clause := trimCh clause0
  if containsCh (strOf "<=>") clause then false
  else if containsCh (strOf "=>") clause then
    match splitOnCh (strOf "=>") clause with
    | [_, conclusion0] =>
      let conclusion := trimCh conclusion0
      !(startsWithCh (strOf "~") conclusion) && (splitWsCh conclusion).length ≤ 1
    | _ => false
  else
    let literals := (splitOnCh (strOf "||") clause).map trimCh
    (literals.filter (fun l => !(startsWithCh (strOf "~") l))).length ≤ 1

/-- `ForwardChaining.is_horn_form` (lines 16-61 of `forwardChaining.py`). -/
def is_horn_form (tell_part : Str) : Bool :=
  (splitOnCh (strOf ";") tell_part).all hornClauseCheck

/-- `ForwardChaining.disjunction_to_implication` (lines 112-133).  Python
returns the implication text on success and `False` on failure; here the
failure is `none`. -/
def disjunction_to_implication (disjunction : Str) : Option Str :=
  let terms := splitOnCh (strOf "||") disjunction
  let negations := (terms.filter (fun t => startsWithCh (strOf "~") t)).map (fun t => t.drop 1)
  let non_negations := terms.filter (fun t => !(startsWithCh (strOf "~") t))
  if negations.length ≥ 1 ∧ non_negations.length = 1 then
    some (List.intercalate (strOf "&") negations ++ strOf "=>" ++ non_negations.headI)
  else
    none

/-- The body of the clause loop in `parse_kb_and_query` (lines 80-107):
process one clause, threading the rule and fact maps.  `none` models the
fatal exits: a disjunction that cannot be converted (`exit(1)`) and a
multi-`=>` split (Python `ValueError`). -/
def processClause (rules : Rules) (facts : Facts) (clause0 : Str) :
    Option (Rules × Facts) :=
  let clause1 := trimCh clause0
  let converted : Option Str :=
    if containsCh (strOf "||") clause1 then disjunction_to_implication clause1
    else some clause1
  match converted with
  | none => none
  | some clause =>
    if containsCh (strOf "=>") clause then
      match splitOnCh (strOf "=>") clause with
      | [premStr, conclStr] =>
        let premises := (splitOnCh (strOf "&") premStr).map fun p =>
          (dropTildes (trimCh p), startsWithCh (strOf "~") (trimCh p))
        let conclusion := dropTildes (trimCh conclStr)
        let is_negated_conclusion := startsWithCh (strOf "~") (trimCh clause)
        some (addRule conclusion (premises, is_negated_conclusion) rules, facts)
      | _ => none
    else
      some (rules,
        alSet (dropTildes (trimCh clause)) (!(startsWithCh (strOf "~") (trimCh clause))) facts)

/-- The constructed knowledge base: the mutable state of a `ForwardChaining`
object right after `__init__`. -/
structure FC where
  rules : Rules
  facts : Facts
  query : Str × Bool
  derived_facts : List Str
  entailments : List Str
deriving DecidableEq, Inhabited

/-- `ForwardChaining.parse_kb_and_query` on the two pre-extracted strings
(the clause-list text of TELL and the literal text of ASK; file reading and
the TELL/ASK regex are the external collaborator of the spec).  `none`
models the fatal rejections (`exit(1)` on a non-Horn knowledge base or a
failed disjunction conversion, and the uncaught `ValueError`). -/
def parse_kb_and_query (tell_part ask_part : Str) : Option FC :=
  if is_horn_form tell_part then
    (((splitOnCh (strOf ";") tell_part).foldl
        (fun acc clause => acc.bind fun rf => processClause rf.1 rf.2 clause)
        (some (([] : Rules), ([] : Facts)))).map fun rf =>
      { rules := rf.1, facts := rf.2,
        query := (dropTildes (trimCh ask_part), startsWithCh (strOf "~") (trimCh ask_part)),
        derived_facts := [], entailments := [] })
  else
    none

/-- The transient state of one `run` invocation (plus the fact map and the
accumulated trace, both of which live on the object across invocations). -/
structure EngineState where
  facts : Facts
  agenda : List Str
  derived : List Str
  entailments : List Str
deriving DecidableEq, Inhabited

/-- Line 154: `all((p in self.derived_facts) == (not neg) for p, neg in premises)`. -/
def premisesHold (derived : List Str) (premises : List Premise) : Bool :=
  premises.all fun pr => decide (pr.1 ∈ derived) == !pr.2

/-- Lines 154-158: one disjunct of the rule sweep. -/
def sweepDisjunct (conclusion : Str) (st : EngineState) (d : Disjunct) : EngineState :=
  if premisesHold st.derived d.1 then
    if conclusion ∈ st.derived then st
    else
      { st with
        agenda := st.agenda ++ [conclusion]
        derived := st.derived ++ [conclusion]
        facts := alSet conclusion (!d.2) st.facts }
  else st

/-- Lines 152-158: all disjuncts stored under one conclusion. -/
def sweepRule (st : EngineState) (r : Str × List Disjunct) : EngineState :=
  r.2.foldl (sweepDisjunct r.1) st

/-- Lines 151-158: the full sweep over `self.rules.items()`. -/
def sweepAll (rules : Rules) (st : EngineState) : EngineState :=
  rules.foldl sweepRule st

/-- Outcome of `run`: `yes` with the printed trace, `no`, or an uncaught
`KeyError` from the polarity lookup in the query check. -/
inductive RunResult where
  | yes (trace : List Str)
  | no
  | keyError
deriving DecidableEq, Inhabited

/-- Line 142-143: pop the front of the agenda and append it to the trace. -/
def popState (st : EngineState) (f : Str) (rest : List Str) : EngineState :=
  { st with agenda := rest, entailments := st.entailments ++ [f] }

/-- The `while agenda:` loop of `run` (lines 141-161), fuel-indexed.
`none` means the fuel ran out before the loop finished. -/
def runLoop (rules : Rules) (q : Str × Bool) : Nat → EngineState → Option (RunResult × EngineState)
  | fuel, st =>
    match st.agenda with
    | [] => some (.no, st)
    | f :: rest =>
      match fuel with
      | 0 => none
      | fuel' + 1 =>
        let st1 := popState st f rest
        if f == q.1 then
          match lookupAL st1.facts f with
          | none => some (.keyError, st1)
          | some b =>
            if b == !q.2 then some (.yes st1.entailments, st1)
            else runLoop rules q fuel' (sweepAll rules st1)
        else runLoop rules q fuel' (sweepAll rules st1)

/-- Line 138: the agenda seeded with the symbols of all initially-true facts. -/
def initAgenda (facts : Facts) : List Str := (facts.filter (fun p => p.2)).map Prod.fst

/-- Lines 138-139: the engine state at the top of `run`. -/
def initState (fc : FC) : EngineState :=
  { facts := fc.facts
    agenda := initAgenda fc.facts
    derived := initAgenda fc.facts
    entailments := fc.entailments }

/-- `ForwardChaining.run` (lines 135-161): returns the outcome together with
the object state left behind by the call. -/
def runFC (fc : FC) (fuel : Nat) : Option (RunResult × FC) :=
  (runLoop fc.rules fc.query fuel (initState fc)).map fun p =>
    (p.1, { fc with
              facts := p.2.facts
              derived_facts := p.2.derived
              entailments := p.2.entailments })

/-- The whole pipeline: build the knowledge base, then (only on success)
invoke the engine. -/
def solve (tell ask : Str) (fuel : Nat) : Option (RunResult × FC) :=
  (parse_kb_and_query tell ask).bind fun fc => runFC fc fuel

/-- Whether a `run` invocation hits the uncaught `KeyError` of the query
check (never, per the safety theorem below). -/
def raisesKeyError (fc : FC) (fuel : Nat) : Bool :=
  match runFC fc fuel with
  | some (.keyError, _) => true
  | _ => false

/-- Concrete knowledge base `A; A => B` with query `B` (used in witnesses). -/
def fcWa : FC :=
  { rules := [(strOf "B", [([(strOf "A", false)], false)])]
    facts := [(strOf "A", true)]
    query := (strOf "B", false)
    derived_facts := []
    entailments := [] }

/-- Concrete knowledge base with the query occurring only as the negated
initial fact `~A` (used in witnesses). -/
def fcWc : FC :=
  { rules := []
    facts := [(strOf "A", false)]
    query := (strOf "A", true)
    derived_facts := []
    entailments := [] }

/-- The object built by `parse_kb_and_query` from TELL `A; ~B => Q; A => B`
and ASK `~Q`. -/
def fcA : FC :=
  { rules := [(strOf "Q", [([(strOf "B", true)], true)]),
              (strOf "B", [([(strOf "A", false)], false)])]
    facts := [(strOf "A", true)]
    query := (strOf "Q", true)
    derived_facts := []
    entailments := [] }

/-- The same object after its first `run` invocation (which prints
`YES: A, Q`): the fact map and the trace keep the mutations. -/
def fcB : FC :=
  { rules := [(strOf "Q", [([(strOf "B", true)], true)]),
              (strOf "B", [([(strOf "A", false)], false)])]
    facts := [(strOf "A", true), (strOf "Q", false), (strOf "B", true)]
    query := (strOf "Q", true)
    derived_facts := [strOf "A", strOf "Q", strOf "B"]
    entailments := [strOf "A", strOf "Q"] }

/-- The same object after its second `run` invocation (which prints `NO`). -/
def fcC : FC :=
  { rules := [(strOf "Q", [([(strOf "B", true)], true)]),
              (strOf "B", [([(strOf "A", false)], false)])]
    facts := [(strOf "A", true), (strOf "Q", false), (strOf "B", true)]
    query := (strOf "Q", true)
    derived_facts := [strOf "A", strOf "B"]
    entailments := [strOf "A", strOf "Q", strOf "A", strOf "B"] }

/-- The claim's firing condition for a disjunct: every premise literal
`(symbol, negated)` satisfies `(symbol ∈ Derived Facts Set) == (not negated)`. -/
def Fires (derived : List Str) (premises : List Premise) : Prop :=
  ∀ pr ∈ premises, (pr.1 ∈ derived ↔ pr.2 = false)

instance (derived : List Str) (premises : List Premise) :
    Decidable (Fires derived premises) := by
  unfold Fires
  infer_instance

/-- Joining string pieces with a separator (inverse of `splitOnCh`). -/
def joinSep (sep : Str) : List Str → Str
  | [] => []
  | [p] => p
  | p :: rest => p ++ sep ++ joinSep sep rest

/-- Declarative (spec §4.1) per-clause Horn condition, written from the
spec's words: no biconditional occurs in the clause; if an implication
connective occurs, splitting on it gives exactly two parts and the trimmed
right-hand side is a single non-negated token; otherwise at most one
`||`-disjunct is non-negated. -/
def HornClauseOK (clause : Str) : Prop :=
  ¬ (strOf "<=>" <:+: clause) ∧
  ((strOf "=>" <:+: clause) →
    ∃ l r, splitOnCh (strOf "=>") clause = [l, r] ∧
      startsWithCh (strOf "~") (trimCh r) = false ∧ (splitWsCh (trimCh r)).length ≤ 1) ∧
  (¬ (strOf "=>" <:+: clause) →
    (((splitOnCh (strOf "||") clause).map trimCh).filter
        (fun l => !(startsWithCh (strOf "~") l))).length ≤ 1)

/-- The conclusion symbols of the rule table, as a finite set. -/
def ruleKeysFinset (rs : Rules) : Finset Str := (rs.map Prod.fst).toFinset

/-- Termination measure of the `run` loop: queue length plus twice the
number of rule conclusions not yet derived. -/
def stMeasure (rs : Rules) (st : EngineState) : Nat :=
  st.agenda.length + 2 * ((ruleKeysFinset rs) \ st.derived.toFinset).card

/-- Every queued symbol has a defined polarity in the fact map. -/
def KeysOk (st : EngineState) : Prop :=
  ∀ x ∈ st.agenda, (lookupAL st.facts x).isSome = true

/-- The claim's success condition, written from its words: at some point of
the (deterministic) popping sequence, the symbol at the front of the work
queue equals the query's symbol while its currently stored Fact Set polarity
equals the negation of the query's negation flag. -/
inductive Entails (rs : Rules) (q : Str × Bool) : EngineState → Prop where
  | found (st : EngineState) (f : Str) (rest : List Str) :
      st.agenda = f :: rest → f = q.1 → lookupAL st.facts f = some (!q.2) →
      Entails rs q st
  | step (st : EngineState) (f : Str) (rest : List Str) :
      st.agenda = f :: rest →
      ¬ (f = q.1 ∧ lookupAL st.facts f = some (!q.2)) →
      Entails rs q (sweepAll rs (popState st f rest)) →
      Entails rs q st

/-! ### Basic lemmas about the association-list operations -/

theorem lookupAL_alSet (k : Str) (v : Bool) (f : Facts) (x : Str) :
    lookupAL (alSet k v f) x = if k = x then some v else lookupAL f x := by
  induction f with
  | nil => by_cases h : k = x <;> simp [alSet, lookupAL, h]
  | cons p rest ih =>
    obtain ⟨k', v'⟩ := p
    by_cases hk : k' = k
    · subst hk
      by_cases hx : k' = x <;> simp [alSet, lookupAL, hx]
    · by_cases hx : k' = x
      · subst hx
        have hkx : ¬ k = k' := fun h => hk h.symm
        simp [alSet, lookupAL, hk, hkx]
      · simp [alSet, lookupAL, hk, hx, ih]

theorem lookupAL_isSome_iff (f : Facts) (x : Str) :
    (lookupAL f x).isSome = true ↔ ∃ b, (x, b) ∈ f := by
  induction f with
  | nil => simp [lookupAL]
  | cons p rest ih =>
    obtain ⟨k', v'⟩ := p
    by_cases hx : k' = x
    · subst hx
      simp [lookupAL]
    · simp only [lookupAL, beq_iff_eq, if_neg hx, ih, List.mem_cons]
      constructor
      · rintro ⟨b, hb⟩
        exact ⟨b, Or.inr hb⟩
      · rintro ⟨b, hb | hb⟩
        · cases hb
          exact absurd rfl hx
        · exact ⟨b, hb⟩

/-! ### C2: the rule-sweep step -/

theorem premisesHold_iff_Fires (derived : List Str) (premises : List Premise) :
    premisesHold derived premises = true ↔ Fires derived premises := by
  simp only [premisesHold, Fires, List.all_eq_true]
  refine forall₂_congr fun pr _ => ?_
  cases hb : pr.2 <;> simp [hb]

/-- C2: during the rule sweep, a disjunct fires iff every premise literal
`(symbol, negated)` satisfies `(symbol ∈ Derived Facts Set) == (not negated)`;
when it fires with a conclusion not yet in the Derived Facts Set, the engine
appends the conclusion to the work queue, adds it to the Derived Facts Set,
and stores Fact Set polarity `not is_negated_conclusion` for it; when the
conclusion is already derived, or the disjunct does not fire, the state is
unchanged. -/
theorem sweep_step_fires_and_pushes (c : Str) (st : EngineState) (d : Disjunct) :
    (premisesHold st.derived d.1 = true ↔ Fires st.derived d.1) ∧
    (Fires st.derived d.1 → c ∉ st.derived →
      sweepDisjunct c st d =
        { st with
            agenda := st.agenda ++ [c]
            derived := st.derived ++ [c]
            facts := alSet c (!d.2) st.facts } ∧
      lookupAL (sweepDisjunct c st d).facts c = some (!d.2)) ∧
    (Fires st.derived d.1 → c ∈ st.derived → sweepDisjunct c st d = st) ∧
    (¬ Fires st.derived d.1 → sweepDisjunct c st d = st) := by
  refine ⟨premisesHold_iff_Fires _ _, ?_, ?_, ?_⟩
  · intro hf hc
    have hph : premisesHold st.derived d.1 = true := (premisesHold_iff_Fires _ _).mpr hf
    constructor
    · simp [sweepDisjunct, hph, hc]
    · simp [sweepDisjunct, hph, hc, lookupAL_alSet]
  · intro hf hc
    have hph : premisesHold st.derived d.1 = true := (premisesHold_iff_Fires _ _).mpr hf
    simp [sweepDisjunct, hph, hc]
  · intro hf
    have hph : premisesHold st.derived d.1 = false := by
      rw [← Bool.not_eq_true]
      exact fun h => hf ((premisesHold_iff_Fires _ _).mp h)
    simp [sweepDisjunct, hph]

/-- Closed instance of the C2 theorem: with derived set `{A}`, the disjunct
`A ⇒ Q` (conclusion flag negated) fires and pushes `Q` with stored polarity
`false`. -/
theorem sweep_step_fires_and_pushes_witness :
    sweepDisjunct (strOf "Q")
        { facts := [(strOf "A", true)], agenda := [], derived := [strOf "A"],
          entailments := [strOf "A"] }
        ([(strOf "A", false)], true) =
      { facts := [(strOf "A", true), (strOf "Q", false)], agenda := [strOf "Q"],
        derived := [strOf "A", strOf "Q"], entailments := [strOf "A"] } ∧
    lookupAL (sweepDisjunct (strOf "Q")
        { facts := [(strOf "A", true)], agenda := [], derived := [strOf "A"],
          entailments := [strOf "A"] }
        ([(strOf "A", false)], true)).facts (strOf "Q") = some false := by
  have h := (sweep_step_fires_and_pushes (strOf "Q")
      { facts := [(strOf "A", true)], agenda := [], derived := [strOf "A"],
        entailments := [strOf "A"] }
      ([(strOf "A", false)], true)).2.1
      (by decide) (by decide)
  exact ⟨h.1, h.2⟩

/-! ### C4: the disjunction-to-implication rewrite -/

/-- C4: splitting a disjunctive clause on `||`, the conversion succeeds iff
there is at least one negated term and exactly one non-negated term; on
success the result is the negated terms stripped of their `~` marker joined
by `&`, followed by `=>` and the non-negated term; `~A||~B||C` maps to
`A&B=>C`; every other shape yields failure (`none`), never an exception. -/
theorem to_implication_shape :
    (∀ clause : Str,
      ((disjunction_to_implication clause).isSome = true ↔
        1 ≤ ((splitOnCh (strOf "||") clause).filter
              (fun t => startsWithCh (strOf "~") t)).length ∧
        ((splitOnCh (strOf "||") clause).filter
              (fun t => !(startsWithCh (strOf "~") t))).length = 1) ∧
      (∀ c0, (splitOnCh (strOf "||") clause).filter
              (fun t => !(startsWithCh (strOf "~") t)) = [c0] →
        1 ≤ ((splitOnCh (strOf "||") clause).filter
              (fun t => startsWithCh (strOf "~") t)).length →
        disjunction_to_implication clause =
          some (List.intercalate (strOf "&")
              (((splitOnCh (strOf "||") clause).filter
                  (fun t => startsWithCh (strOf "~") t)).map (fun t => t.drop 1)) ++
            strOf "=>" ++ c0))) ∧
    disjunction_to_implication (strOf "~A||~B||C") = some (strOf "A&B=>C") := by
  refine ⟨fun clause => ⟨?_, ?_⟩, by decide⟩
  · unfold disjunction_to_implication
    by_cases h : 1 ≤ ((splitOnCh (strOf "||") clause).filter
          (fun t => startsWithCh (strOf "~") t)).length ∧
        ((splitOnCh (strOf "||") clause).filter
          (fun t => !(startsWithCh (strOf "~") t))).length = 1
    · simp only [List.length_map]
      rw [if_pos h]
      simpa using h
    · simp only [List.length_map]
      rw [if_neg h]
      simpa using h
  · intro c0 hc0 hneg
    unfold disjunction_to_implication
    simp only [List.length_map]
    rw [hc0, if_pos ⟨hneg, rfl⟩]
    simp

/-- Closed instance of the C4 theorem: the success-shape equation evaluated
on the clause `~A||B`, with the hypotheses checked concretely. -/
theorem to_implication_shape_witness :
    disjunction_to_implication (strOf "~A||B") =
      some (List.intercalate (strOf "&")
          (((splitOnCh (strOf "||") (strOf "~A||B")).filter
              (fun t => startsWithCh (strOf "~") t)).map (fun t => t.drop 1)) ++
        strOf "=>" ++ strOf "B") :=
  (to_implication_shape.1 (strOf "~A||B")).2 (strOf "B") (by decide) (by decide)

/-! ### C3: negation bookkeeping in the knowledge-base builder -/

/-- C3: for an (already trimmed) implication clause the builder records the
disjunct's conclusion-negation flag as `startsWith "~"` of the *entire
clause*, not of the conclusion token; for a bare literal it records polarity
`true` iff the whole clause does *not* start with `~`; in both cases the
stored symbol is the respective text stripped of leading `~` markers. -/
theorem builder_negation_from_clause_start :
    ∀ (rules : Rules) (facts : Facts) (clause : Str), trimCh clause = clause →
      containsCh (strOf "||") clause = false →
      ((∀ lhs rhs, containsCh (strOf "=>") clause = true →
          splitOnCh (strOf "=>") clause = [lhs, rhs] →
          processClause rules facts clause =
            some (addRule (dropTildes (trimCh rhs))
                (((splitOnCh (strOf "&") lhs).map fun p =>
                    (dropTildes (trimCh p), startsWithCh (strOf "~") (trimCh p))),
                  startsWithCh (strOf "~") clause) rules,
              facts)) ∧
       (containsCh (strOf "=>") clause = false →
          processClause rules facts clause =
            some (rules,
              alSet (dropTildes clause) (!(startsWithCh (strOf "~") clause)) facts))) := by
  intro rules facts clause htrim hdisj
  constructor
  · intro lhs rhs himp hsplit
    simp only [processClause, htrim, hdisj, Bool.false_eq_true, if_false, himp, if_true,
      hsplit]
  · intro himp
    simp only [processClause, htrim, hdisj, Bool.false_eq_true, if_false, himp]

/-- Closed instance of the C3 theorem: the implication clause `~B=>Q` is
stored under conclusion symbol `Q` with conclusion-negation flag `true`
(the clause starts with `~`), and the bare literal `~A` is stored as the
fact `A ↦ false`. -/
theorem builder_negation_from_clause_start_witness :
    processClause [] [] (strOf "~B=>Q") =
      some (addRule (dropTildes (trimCh (strOf "Q")))
          (((splitOnCh (strOf "&") (strOf "~B")).map fun p =>
              (dropTildes (trimCh p), startsWithCh (strOf "~") (trimCh p))),
            startsWithCh (strOf "~") (strOf "~B=>Q")) [],
        []) ∧
    processClause [] [] (strOf "~A") =
      some ([],
        alSet (dropTildes (strOf "~A")) (!(startsWithCh (strOf "~") (strOf "~A"))) []) :=
  ⟨(builder_negation_from_clause_start [] [] (strOf "~B=>Q") (by decide) (by decide)).1
      (strOf "~B") (strOf "Q") (by decide) (by decide),
   (builder_negation_from_clause_start [] [] (strOf "~A") (by decide) (by decide)).2
      (by decide)⟩

/-! ### String lemmas: containment, splitting and trimming -/

theorem containsCh_iff_infix (pat s : Str) : containsCh pat s = true ↔ pat <:+: s := by
  induction s with
  | nil => simp [containsCh, List.isPrefixOf_iff_prefix, List.infix_nil, List.prefix_nil]
  | cons c rest ih =>
    simp [containsCh, List.isPrefixOf_iff_prefix, ih, List.infix_cons_iff]

theorem prefix_of_left_of_append (pat x y : Str) (c : Char) (hc : c ∉ pat) :
    pat <+: x ++ c :: y → pat <+: x := by
  induction pat generalizing x with
  | nil => intro _; exact List.nil_prefix
  | cons p ps ih =>
    intro h
    cases x with
    | nil =>
      rw [List.nil_append, List.cons_prefix_cons] at h
      obtain ⟨rfl, -⟩ := h
      exact absurd (List.mem_cons_self _ _) hc
    | cons a xs =>
      rw [List.cons_append, List.cons_prefix_cons] at h
      exact List.cons_prefix_cons.mpr
        ⟨h.1, ih xs (fun hm => hc (List.mem_cons_of_mem _ hm)) h.2⟩

theorem infix_of_append_right (pat w r : Str) (hw : ∀ c ∈ w, c ∉ pat) (hp : pat ≠ []) :
    pat <:+: w ++ r → pat <:+: r := by
  induction w with
  | nil => simp only [List.nil_append]; exact id
  | cons a w' ih =>
    intro h
    rw [List.cons_append, List.infix_cons_iff] at h
    rcases h with h | h
    · cases pat with
      | nil => exact absurd rfl hp
      | cons p ps =>
        rw [List.cons_prefix_cons] at h
        obtain ⟨rfl, -⟩ := h
        exact absurd (List.mem_cons_self _ _) (hw _ (List.mem_cons_self _ _))
    · exact ih (fun c hcw => hw c (List.mem_cons_of_mem _ hcw)) h

theorem infix_straddle (pat x y : Str) (c : Char) (hc : c ∉ pat) :
    pat <:+: x ++ c :: y → pat <:+: x ∨ pat <:+: y := by
  induction x with
  | nil =>
    intro h
    rw [List.nil_append, List.infix_cons_iff] at h
    rcases h with h | h
    · cases pat with
      | nil => exact Or.inl List.nil_infix
      | cons p ps =>
        rw [List.cons_prefix_cons] at h
        obtain ⟨rfl, -⟩ := h
        exact absurd (List.mem_cons_self _ _) hc
    · exact Or.inr h
  | cons a xs ih =>
    intro h
    rw [List.cons_append, List.infix_cons_iff] at h
    rcases h with h | h
    · exact Or.inl (prefix_of_left_of_append pat (a :: xs) y c hc h).isInfix
    · rcases ih h with h2 | h2
      · exact Or.inl (List.infix_cons h2)
      · exact Or.inr h2

theorem joinSep_cons₂ (sep : Str) (p : Str) (rest : List Str) (h : rest ≠ []) :
    joinSep sep (p :: rest) = p ++ sep ++ joinSep sep rest := by
  cases rest with
  | nil => exact absurd rfl h
  | cons q rest' => rfl

theorem splitGo_ne_nil (sep : Str) :
    ∀ (fuel : Nat) (s acc : Str), splitGo sep fuel s acc ≠ [] := by
  intro fuel
  induction fuel with
  | zero => intro s acc; cases s <;> simp [splitGo]
  | succ n ih =>
    intro s acc
    cases s with
    | nil => simp [splitGo]
    | cons c rest =>
      simp only [splitGo]
      split
      · simp
      · exact ih _ _

theorem joinSep_splitGo (sep : Str) (hsep : sep ≠ []) :
    ∀ (fuel : Nat) (s acc : Str),
      joinSep sep (splitGo sep fuel s acc) = acc.reverse ++ s := by
  intro fuel
  induction fuel with
  | zero =>
    intro s acc
    cases s with
    | nil => simp [splitGo, joinSep]
    | cons c rest => simp [splitGo, joinSep]
  | succ n ih =>
    intro s acc
    cases s with
    | nil => simp [splitGo, joinSep]
    | cons c rest =>
      simp only [splitGo]
      split
      · rename_i hpre
        rw [joinSep_cons₂ _ _ _ (splitGo_ne_nil _ _ _ _), ih _ []]
        have hp : sep <+: c :: rest := List.isPrefixOf_iff_prefix.mp hpre
        obtain ⟨t, ht⟩ := hp
        cases sep with
        | nil => exact absurd rfl hsep
        | cons s0 sep' =>
          rw [List.cons_append] at ht
          injection ht with h0 h1
          subst h0
          have hdrop : List.drop ((s0 :: sep').length - 1) rest = t := by
            rw [← h1]
            simp [List.drop_left]
          rw [hdrop, ← h1]
          simp
      · rw [ih rest (c :: acc)]
        simp

theorem joinSep_splitOnCh (sep s : Str) (hsep : sep ≠ []) :
    joinSep sep (splitOnCh sep s) = s := by
  simpa using joinSep_splitGo sep hsep s.length s []

theorem infix_joinSep (pat : Str) (c : Char) (hc : c ∉ pat) (hp : pat ≠ []) :
    ∀ parts : List Str, pat <:+: joinSep [c] parts → ∃ p ∈ parts, pat <:+: p := by
  intro parts
  induction parts with
  | nil =>
    intro h
    rw [joinSep, List.infix_nil] at h
    exact absurd h hp
  | cons p rest ih =>
    cases rest with
    | nil =>
      intro h
      exact ⟨p, by simp, by simpa [joinSep] using h⟩
    | cons q rest' =>
      intro h
      rw [joinSep_cons₂ _ _ _ (by simp), List.append_assoc, List.singleton_append] at h
      rcases infix_straddle pat p _ c hc h with h2 | h2
      · exact ⟨p, by simp, h2⟩
      · obtain ⟨x, hx, hx2⟩ := ih h2
        exact ⟨x, by simp [hx], hx2⟩

theorem infix_dropWhile (pat : Str) (P : Char → Bool)
    (hpat : ∀ ch ∈ pat, P ch = false) (hp : pat ≠ []) (s : Str) :
    pat <:+: s → pat <:+: s.dropWhile P := by
  intro h
  rw [← List.takeWhile_append_dropWhile P s] at h
  refine infix_of_append_right pat _ _ ?_ hp h
  intro ch hch hmem
  have htk := List.mem_takeWhile_imp hch
  rw [hpat ch hmem] at htk
  exact Bool.noConfusion htk

theorem infix_trimCh (pat s : Str) (hpat : ∀ ch ∈ pat, ch.isWhitespace = false)
    (hp : pat ≠ []) : pat <:+: s → pat <:+: trimCh s := by
  intro h
  have h1 : pat <:+: s.dropWhile Char.isWhitespace :=
    infix_dropWhile pat _ hpat hp s h
  have h2 : pat.reverse <:+: (s.dropWhile Char.isWhitespace).reverse :=
    List.reverse_infix.mpr h1
  have h3 : pat.reverse <:+:
      (s.dropWhile Char.isWhitespace).reverse.dropWhile Char.isWhitespace :=
    infix_dropWhile _ _ (fun ch hch => hpat ch (List.mem_reverse.mp hch))
      (by simpa using hp) _ h2
  refine List.reverse_infix.mp ?_
  rw [trimCh, List.reverse_reverse]
  exact h3

theorem infix_some_clause (pat s : Str) (hp : pat ≠ []) (hc : ';' ∉ pat) :
    pat <:+: s → ∃ part ∈ splitOnCh (strOf ";") s, pat <:+: part := by
  intro h
  rw [← joinSep_splitOnCh (strOf ";") s (by decide)] at h
  exact infix_joinSep pat ';' hc hp _ h

/-! ### C5: the Horn-form classifier -/

theorem hornClauseCheck_iff_OK (c : Str) :
    hornClauseCheck c = true ↔ HornClauseOK (trimCh c) := by
  unfold hornClauseCheck HornClauseOK
  simp only [← containsCh_iff_infix]
  by_cases h1 : containsCh (strOf "<=>") (trimCh c) = true
  · simp [h1]
  · rw [Bool.not_eq_true] at h1
    by_cases h2 : containsCh (strOf "=>") (trimCh c) = true
    · simp only [h1, h2, Bool.false_eq_true, if_false, if_true, forall_const,
        Bool.true_eq_false, not_true_eq_false, false_implies, and_true, not_false_eq_true,
        true_implies]
      rcases hs : splitOnCh (strOf "=>") (trimCh c) with _ | ⟨a, _ | ⟨b, _ | ⟨d, rest⟩⟩⟩ <;>
        simp [Bool.and_eq_true, List.cons.injEq]
      constructor
      · rintro ⟨hna, hlen⟩
        exact ⟨a, b, ⟨rfl, rfl⟩, by simpa using hna, hlen⟩
      · rintro ⟨l, r, ⟨rfl, rfl⟩, hna, hlen⟩
        exact ⟨by simpa using hna, hlen⟩
    · simp [h1, h2]

theorem is_horn_form_false_of_biconditional (t : Str) (ht : strOf "<=>" <:+: t) :
    is_horn_form t = false := by
  obtain ⟨part, hpart, hinf⟩ := infix_some_clause _ t (by decide) (by decide) ht
  have htr : strOf "<=>" <:+: trimCh part :=
    infix_trimCh _ _ (by decide) (by decide) hinf
  rw [← Bool.not_eq_true, is_horn_form, List.all_eq_true]
  intro hall
  have hOK := (hornClauseCheck_iff_OK part).mp (hall part hpart)
  exact hOK.1 htr

/-- C5: `is_horn_form` accepts a clause list exactly when every clause
satisfies the declarative per-clause Horn condition of §4.1 (no
biconditional, a unique `=>` with a single non-negated right-hand token, or
at most one positive `||`-disjunct); any input containing `<=>` anywhere is
rejected; the two-positive-literal clause `A || B` is rejected. -/
theorem horn_classifier_correct :
    (∀ t : Str, is_horn_form t = true ↔
      ∀ clause ∈ splitOnCh (strOf ";") t, HornClauseOK (trimCh clause)) ∧
    (∀ t : Str, strOf "<=>" <:+: t → is_horn_form t = false) ∧
    is_horn_form (strOf "A || B") = false := by
  refine ⟨fun t => ?_, fun t ht => is_horn_form_false_of_biconditional t ht, by decide⟩
  rw [is_horn_form, List.all_eq_true]
  exact forall₂_congr fun clause _ => hornClauseCheck_iff_OK clause

/-- Closed instance of the C5 theorem: a biconditional input is rejected. -/
theorem horn_classifier_correct_witness : is_horn_form (strOf "A;P<=>Q;B") = false :=
  horn_classifier_correct.2.1 (strOf "A;P<=>Q;B") (by decide)

/-! ### C7: eager rejection during knowledge-base construction -/

theorem processClause_none_of_bad_disjunction (r : Rules) (f : Facts) (clause : Str)
    (h1 : containsCh (strOf "||") (trimCh clause) = true)
    (h2 : disjunction_to_implication (trimCh clause) = none) :
    processClause r f clause = none := by
  simp only [processClause, h1, if_true, h2]

theorem foldl_bind_processClause_none_of_none (clauses : List Str) :
    clauses.foldl (fun acc c => acc.bind fun rf => processClause rf.1 rf.2 c)
      (none : Option (Rules × Facts)) = none := by
  induction clauses with
  | nil => rfl
  | cons c rest ih => simpa [Option.bind] using ih

theorem foldl_processClause_none (clauses : List Str) (clause : Str)
    (hmem : clause ∈ clauses)
    (hfail : ∀ r f, processClause r f clause = none) :
    ∀ init : Option (Rules × Facts),
      clauses.foldl (fun acc c => acc.bind fun rf => processClause rf.1 rf.2 c) init =
        none := by
  induction clauses with
  | nil => exact absurd hmem (List.not_mem_nil _)
  | cons c rest ih =>
    intro init
    rcases List.mem_cons.mp hmem with rfl | hmem'
    · cases init with
      | none =>
        simpa [Option.bind, hfail] using foldl_bind_processClause_none_of_none rest
      | some rf =>
        simpa [Option.bind, hfail] using foldl_bind_processClause_none_of_none rest
    · exact ih hmem' _

/-- C7: an input whose TELL part triggers a format error is rejected during
knowledge-base construction and the engine is never invoked: a TELL
containing a biconditional anywhere yields no knowledge base, as does a TELL
(even one passing the Horn gate) with a clause whose disjunction cannot be
converted to an implication; in both cases the whole pipeline produces
nothing, so no partial derivation is performed. -/
theorem parse_rejects_eagerly :
    (∀ tell ask : Str, strOf "<=>" <:+: tell →
      parse_kb_and_query tell ask = none ∧ ∀ fuel, solve tell ask fuel = none) ∧
    (∀ tell ask clause : Str, clause ∈ splitOnCh (strOf ";") tell →
      containsCh (strOf "||") (trimCh clause) = true →
      disjunction_to_implication (trimCh clause) = none →
      parse_kb_and_query tell ask = none ∧ ∀ fuel, solve tell ask fuel = none) := by
  constructor
  · intro tell ask ht
    have hh : is_horn_form tell = false := is_horn_form_false_of_biconditional tell ht
    have hp : parse_kb_and_query tell ask = none := by
      simp [parse_kb_and_query, hh]
    exact ⟨hp, fun fuel => by simp [solve, hp]⟩
  · intro tell ask clause hmem h1 h2
    have hfold := foldl_processClause_none (splitOnCh (strOf ";") tell) clause hmem
      (fun r f => processClause_none_of_bad_disjunction r f clause h1 h2)
      (some (([] : Rules), ([] : Facts)))
    have hp : parse_kb_and_query tell ask = none := by
      by_cases hh : is_horn_form tell = true
      · simp [parse_kb_and_query, hh, hfold]
      · simp [parse_kb_and_query, hh]
    exact ⟨hp, fun fuel => by simp [solve, hp]⟩

/-- Closed instance of the C7 theorem: the spec's end-to-end scenario 4,
`TELL` containing `P<=>Q`, and an unconvertible disjunction `A||B`: both are
rejected with no knowledge base and no engine invocation. -/
theorem parse_rejects_eagerly_witness :
    (parse_kb_and_query (strOf "A;P<=>Q") (strOf "A") = none ∧
      solve (strOf "A;P<=>Q") (strOf "A") 5 = none) ∧
    (parse_kb_and_query (strOf "~A||~B") (strOf "A") = none ∧
      solve (strOf "~A||~B") (strOf "A") 5 = none) :=
  ⟨⟨(parse_rejects_eagerly.1 (strOf "A;P<=>Q") (strOf "A") (by decide)).1,
    (parse_rejects_eagerly.1 (strOf "A;P<=>Q") (strOf "A") (by decide)).2 5⟩,
   ⟨(parse_rejects_eagerly.2 (strOf "~A||~B") (strOf "A") (strOf "~A||~B")
      (by decide) (by decide) (by decide)).1,
    (parse_rejects_eagerly.2 (strOf "~A||~B") (strOf "A") (strOf "~A||~B")
      (by decide) (by decide) (by decide)).2 5⟩⟩

/-! ### Engine lemmas: sweep preservation and the termination measure -/

theorem foldDisj_preserve {P : EngineState → Prop} (c : Str)
    (h : ∀ st d, P st → P (sweepDisjunct c st d)) :
    ∀ (ds : List Disjunct) (st : EngineState), P st → P (ds.foldl (sweepDisjunct c) st) := by
  intro ds
  induction ds with
  | nil => intro st hst; exact hst
  | cons d rest ih => intro st hst; exact ih _ (h st d hst)

theorem sweepRules_preserve {P : EngineState → Prop} :
    ∀ (rs : Rules) (st : EngineState),
      (∀ st' c d, (∃ ds, (c, ds) ∈ rs) → P st' → P (sweepDisjunct c st' d)) →
      P st → P (rs.foldl sweepRule st) := by
  intro rs
  induction rs with
  | nil => intro st _ hst; exact hst
  | cons r rest ih =>
    intro st h hst
    simp only [List.foldl_cons]
    refine ih _ (fun st' c d hmem hst' => h st' c d ?_ hst') ?_
    · obtain ⟨ds, hds⟩ := hmem
      exact ⟨ds, List.mem_cons_of_mem _ hds⟩
    · exact foldDisj_preserve r.1 (fun st' d hst' =>
        h st' r.1 d ⟨r.2, by simp⟩ hst') r.2 st hst

theorem sweepAll_preserve {P : EngineState → Prop} (rs : Rules) (st : EngineState)
    (h : ∀ st' c d, (∃ ds, (c, ds) ∈ rs) → P st' → P (sweepDisjunct c st' d))
    (hst : P st) : P (sweepAll rs st) :=
  sweepRules_preserve rs st h hst

theorem sweepDisjunct_measure (rs : Rules) (c : Str) (hc : c ∈ ruleKeysFinset rs)
    (st : EngineState) (d : Disjunct) :
    stMeasure rs (sweepDisjunct c st d) ≤ stMeasure rs st := by
  unfold sweepDisjunct
  split
  · split
    · exact le_refl _
    · rename_i hmem
      unfold stMeasure
      simp only [List.length_append, List.length_singleton]
      have hc2 : c ∉ st.derived.toFinset := by simpa using hmem
      have hset : ruleKeysFinset rs \ (st.derived ++ [c]).toFinset =
          (ruleKeysFinset rs \ st.derived.toFinset).erase c := by
        ext x
        simp only [List.toFinset_append, Finset.mem_sdiff, Finset.mem_union,
          List.mem_toFinset, Finset.mem_erase, List.toFinset_cons, List.toFinset_nil,
          Finset.mem_insert, Finset.not_mem_empty, or_false, List.mem_singleton]
        tauto
      have hcmem : c ∈ ruleKeysFinset rs \ st.derived.toFinset :=
        Finset.mem_sdiff.mpr ⟨hc, hc2⟩
      rw [hset, Finset.card_erase_of_mem hcmem]
      have hpos : 0 < (ruleKeysFinset rs \ st.derived.toFinset).card :=
        Finset.card_pos.mpr ⟨c, hcmem⟩
      omega
  · exact le_refl _

theorem foldDisj_measure (rs : Rules) (c : Str) (hc : c ∈ ruleKeysFinset rs) :
    ∀ (ds : List Disjunct) (st : EngineState),
      stMeasure rs (ds.foldl (sweepDisjunct c) st) ≤ stMeasure rs st := by
  intro ds
  induction ds with
  | nil => intro st; exact le_refl _
  | cons d rest ih =>
    intro st
    exact le_trans (ih _) (sweepDisjunct_measure rs c hc st d)

theorem sweepRules_measure (rs : Rules) :
    ∀ (rs' : Rules), (∀ p ∈ rs', p.1 ∈ ruleKeysFinset rs) →
      ∀ st : EngineState, stMeasure rs (rs'.foldl sweepRule st) ≤ stMeasure rs st := by
  intro rs'
  induction rs' with
  | nil => intro _ st; exact le_refl _
  | cons r rest ih =>
    intro h st
    simp only [List.foldl_cons]
    refine le_trans (ih (fun p hp => h p (List.mem_cons_of_mem _ hp)) _) ?_
    exact foldDisj_measure rs r.1 (h r (by simp)) r.2 st

theorem sweepAll_measure (rs : Rules) (st : EngineState) :
    stMeasure rs (sweepAll rs st) ≤ stMeasure rs st :=
  sweepRules_measure rs rs
    (fun p hp => by
      simp only [ruleKeysFinset, List.mem_toFinset, List.mem_map]
      exact ⟨p, hp, rfl⟩) st

/-! ### Unfolding equations for the run loop -/

theorem runLoop_nil (rs : Rules) (q : Str × Bool) (fuel : Nat) (st : EngineState)
    (hag : st.agenda = []) : runLoop rs q fuel st = some (.no, st) := by
  rw [runLoop, hag]

theorem runLoop_zero_cons (rs : Rules) (q : Str × Bool) (st : EngineState)
    (f : Str) (rest : List Str) (hag : st.agenda = f :: rest) :
    runLoop rs q 0 st = none := by
  rw [runLoop, hag]

theorem runLoop_cons (rs : Rules) (q : Str × Bool) (fuel : Nat) (st : EngineState)
    (f : Str) (rest : List Str) (hag : st.agenda = f :: rest) :
    runLoop rs q (fuel + 1) st =
      if f == q.1 then
        match lookupAL (popState st f rest).facts f with
        | none => some (.keyError, popState st f rest)
        | some b =>
          if b == !q.2 then some (.yes (popState st f rest).entailments, popState st f rest)
          else runLoop rs q fuel (sweepAll rs (popState st f rest))
      else runLoop rs q fuel (sweepAll rs (popState st f rest)) := by
  rw [runLoop, hag]

theorem runLoop_cons_keyError (rs : Rules) (q : Str × Bool) (fuel : Nat)
    (st : EngineState) (f : Str) (rest : List Str) (hag : st.agenda = f :: rest)
    (hq : (f == q.1) = true) (hlk : lookupAL (popState st f rest).facts f = none) :
    runLoop rs q (fuel + 1) st = some (.keyError, popState st f rest) := by
  rw [runLoop_cons rs q fuel st f rest hag, if_pos hq, hlk]

theorem runLoop_cons_lookup (rs : Rules) (q : Str × Bool) (fuel : Nat)
    (st : EngineState) (f : Str) (rest : List Str) (b : Bool)
    (hag : st.agenda = f :: rest) (hq : (f == q.1) = true)
    (hlk : lookupAL (popState st f rest).facts f = some b) :
    runLoop rs q (fuel + 1) st =
      if b == !q.2 then
        some (.yes (popState st f rest).entailments, popState st f rest)
      else runLoop rs q fuel (sweepAll rs (popState st f rest)) := by
  rw [runLoop_cons rs q fuel st f rest hag, if_pos hq, hlk]

theorem runLoop_cons_ne (rs : Rules) (q : Str × Bool) (fuel : Nat)
    (st : EngineState) (f : Str) (rest : List Str)
    (hag : st.agenda = f :: rest) (hq : (f == q.1) = false) :
    runLoop rs q (fuel + 1) st = runLoop rs q fuel (sweepAll rs (popState st f rest)) := by
  rw [runLoop_cons rs q fuel st f rest hag, if_neg (by simp [hq])]

theorem stMeasure_popState (rs : Rules) (st : EngineState) (f : Str) (rest : List Str)
    (hag : st.agenda = f :: rest) :
    stMeasure rs (popState st f rest) + 1 = stMeasure rs st := by
  unfold stMeasure popState
  simp [hag]
  omega

theorem runLoop_isSome (rs : Rules) (q : Str × Bool) :
    ∀ (fuel : Nat) (st : EngineState), stMeasure rs st ≤ fuel →
      (runLoop rs q fuel st).isSome = true := by
  intro fuel
  induction fuel with
  | zero =>
    intro st h
    have hag : st.agenda = [] := by
      cases hs : st.agenda with
      | nil => rfl
      | cons f rest =>
        unfold stMeasure at h
        rw [hs] at h
        simp at h
    rw [runLoop_nil rs q 0 st hag]
    rfl
  | succ n ih =>
    intro st h
    cases hag : st.agenda with
    | nil => rw [runLoop_nil rs q _ st hag]; rfl
    | cons f rest =>
      have hm : stMeasure rs (sweepAll rs (popState st f rest)) ≤ n := by
        have h1 := sweepAll_measure rs (popState st f rest)
        have h2 := stMeasure_popState rs st f rest hag
        omega
      cases hq : f == q.1 with
      | true =>
        cases hlk : lookupAL (popState st f rest).facts f with
        | none => rw [runLoop_cons_keyError rs q n st f rest hag hq hlk]; rfl
        | some b =>
          rw [runLoop_cons_lookup rs q n st f rest b hag hq hlk]
          by_cases hb : (b == !q.2) = true
          · rw [if_pos hb]; rfl
          · rw [if_neg hb]; exact ih _ hm
      | false =>
        rw [runLoop_cons_ne rs q n st f rest hag hq]
        exact ih _ hm

/-! ### The key-safety invariant of the loop -/

theorem popState_facts (st : EngineState) (f : Str) (rest : List Str) :
    (popState st f rest).facts = st.facts := rfl

theorem popState_agenda (st : EngineState) (f : Str) (rest : List Str) :
    (popState st f rest).agenda = rest := rfl

theorem sweepDisjunct_keysOk (c : Str) (st : EngineState) (d : Disjunct)
    (h : KeysOk st) : KeysOk (sweepDisjunct c st d) := by
  unfold sweepDisjunct
  split
  · split
    · exact h
    · intro x hx
      simp only [List.mem_append, List.mem_singleton] at hx
      rcases hx with hx | rfl
      · rw [lookupAL_alSet]
        split
        · rfl
        · exact h x hx
      · rw [lookupAL_alSet, if_pos rfl]
        rfl
  · exact h

theorem sweepAll_keysOk (rs : Rules) (st : EngineState) (h : KeysOk st) :
    KeysOk (sweepAll rs st) :=
  sweepAll_preserve rs st (fun st' c d _ h' => sweepDisjunct_keysOk c st' d h') h

theorem popState_keysOk (st : EngineState) (f : Str) (rest : List Str)
    (hag : st.agenda = f :: rest) (h : KeysOk st) : KeysOk (popState st f rest) := by
  intro x hx
  rw [popState_agenda] at hx
  exact h x (by rw [hag]; exact List.mem_cons_of_mem _ hx)

theorem runLoop_no_keyError (rs : Rules) (q : Str × Bool) :
    ∀ (fuel : Nat) (st st' : EngineState), KeysOk st →
      runLoop rs q fuel st = some (.keyError, st') → False := by
  intro fuel
  induction fuel with
  | zero =>
    intro st st' hk hr
    cases hag : st.agenda with
    | nil => rw [runLoop_nil rs q 0 st hag] at hr; simp at hr
    | cons f rest =>
      rw [runLoop_zero_cons rs q st f rest hag] at hr
      exact Option.noConfusion hr
  | succ n ih =>
    intro st st' hk hr
    cases hag : st.agenda with
    | nil => rw [runLoop_nil rs q _ st hag] at hr; simp at hr
    | cons f rest =>
      have hk2 : KeysOk (sweepAll rs (popState st f rest)) :=
        sweepAll_keysOk _ _ (popState_keysOk st f rest hag hk)
      cases hq : f == q.1 with
      | true =>
        cases hlk : lookupAL (popState st f rest).facts f with
        | none =>
          have hsome := hk f (by rw [hag]; exact List.mem_cons_self _ _)
          rw [← popState_facts st f rest, hlk] at hsome
          simp at hsome
        | some b =>
          rw [runLoop_cons_lookup rs q n st f rest b hag hq hlk] at hr
          by_cases hb : (b == !q.2) = true
          · rw [if_pos hb] at hr; simp at hr
          · rw [if_neg hb] at hr; exact ih _ _ hk2 hr
      | false =>
        rw [runLoop_cons_ne rs q n st f rest hag hq] at hr
        exact ih _ _ hk2 hr

/-! ### Preservation of state predicates across the whole loop -/

theorem runLoop_state_preserve {P : EngineState → Prop} (rs : Rules) (q : Str × Bool)
    (hsw : ∀ st, P st → P (sweepAll rs st))
    (hpop : ∀ st f rest, st.agenda = f :: rest → P st → P (popState st f rest)) :
    ∀ (fuel : Nat) (st : EngineState) (r : RunResult) (st' : EngineState),
      runLoop rs q fuel st = some (r, st') → P st → P st' := by
  intro fuel
  induction fuel with
  | zero =>
    intro st r st' hr hp
    cases hag : st.agenda with
    | nil =>
      rw [runLoop_nil rs q 0 st hag] at hr
      simp only [Option.some.injEq, Prod.mk.injEq] at hr
      obtain ⟨-, rfl⟩ := hr
      exact hp
    | cons f rest =>
      rw [runLoop_zero_cons rs q st f rest hag] at hr
      exact Option.noConfusion hr
  | succ n ih =>
    intro st r st' hr hp
    cases hag : st.agenda with
    | nil =>
      rw [runLoop_nil rs q _ st hag] at hr
      simp only [Option.some.injEq, Prod.mk.injEq] at hr
      obtain ⟨-, rfl⟩ := hr
      exact hp
    | cons f rest =>
      have hp1 : P (popState st f rest) := hpop st f rest hag hp
      have hp2 : P (sweepAll rs (popState st f rest)) := hsw _ hp1
      cases hq : f == q.1 with
      | true =>
        cases hlk : lookupAL (popState st f rest).facts f with
        | none =>
          rw [runLoop_cons_keyError rs q n st f rest hag hq hlk] at hr
          simp only [Option.some.injEq, Prod.mk.injEq] at hr
          obtain ⟨-, rfl⟩ := hr
          exact hp1
        | some b =>
          rw [runLoop_cons_lookup rs q n st f rest b hag hq hlk] at hr
          by_cases hb : (b == !q.2) = true
          · rw [if_pos hb] at hr
            simp only [Option.some.injEq, Prod.mk.injEq] at hr
            obtain ⟨-, rfl⟩ := hr
            exact hp1
          · rw [if_neg hb] at hr
            exact ih _ _ _ hr hp2
      | false =>
        rw [runLoop_cons_ne rs q n st f rest hag hq] at hr
        exact ih _ _ _ hr hp2

/-! ### C1: the query-popping characterisation of entailment -/

theorem runLoop_yes_entails (rs : Rules) (q : Str × Bool) :
    ∀ (fuel : Nat) (st : EngineState) (tr : List Str) (st' : EngineState),
      runLoop rs q fuel st = some (.yes tr, st') → Entails rs q st := by
  intro fuel
  induction fuel with
  | zero =>
    intro st tr st' hr
    cases hag : st.agenda with
    | nil => rw [runLoop_nil rs q 0 st hag] at hr; simp at hr
    | cons f rest =>
      rw [runLoop_zero_cons rs q st f rest hag] at hr
      exact Option.noConfusion hr
  | succ n ih =>
    intro st tr st' hr
    cases hag : st.agenda with
    | nil => rw [runLoop_nil rs q _ st hag] at hr; simp at hr
    | cons f rest =>
      cases hq : f == q.1 with
      | true =>
        have hfq : f = q.1 := by simpa using hq
        cases hlk : lookupAL (popState st f rest).facts f with
        | none =>
          rw [runLoop_cons_keyError rs q n st f rest hag hq hlk] at hr
          simp at hr
        | some b =>
          rw [runLoop_cons_lookup rs q n st f rest b hag hq hlk] at hr
          by_cases hb : (b == !q.2) = true
          · have hbv : b = !q.2 := by simpa using hb
            subst hbv
            exact Entails.found st f rest hag hfq hlk
          · rw [if_neg hb] at hr
            refine Entails.step st f rest hag ?_ (ih _ _ _ hr)
            rintro ⟨-, hl⟩
            have : b = !q.2 := Option.some.inj (hlk.symm.trans hl)
            exact hb (by simp [this])
      | false =>
        have hfq : ¬ f = q.1 := by simpa using hq
        rw [runLoop_cons_ne rs q n st f rest hag hq] at hr
        exact Entails.step st f rest hag (fun hcon => hfq hcon.1) (ih _ _ _ hr)

theorem entails_runLoop_yes (rs : Rules) (q : Str × Bool) :
    ∀ st : EngineState, Entails rs q st → KeysOk st →
      ∀ fuel : Nat, stMeasure rs st ≤ fuel →
        ∃ tr st', runLoop rs q fuel st = some (.yes tr, st') := by
  intro st hent
  induction hent with
  | found st f rest hag hfq hlk =>
    intro hk fuel hfuel
    cases fuel with
    | zero =>
      exfalso
      unfold stMeasure at hfuel
      rw [hag] at hfuel
      simp at hfuel
    | succ n =>
      have hq : (f == q.1) = true := by simp [hfq]
      rw [runLoop_cons_lookup rs q n st f rest (!q.2) hag hq hlk, if_pos (by simp)]
      exact ⟨_, _, rfl⟩
  | step st f rest hag hneg hsub ih =>
    intro hk fuel hfuel
    cases fuel with
    | zero =>
      exfalso
      unfold stMeasure at hfuel
      rw [hag] at hfuel
      simp at hfuel
    | succ n =>
      have hm : stMeasure rs (sweepAll rs (popState st f rest)) ≤ n := by
        have h1 := sweepAll_measure rs (popState st f rest)
        have h2 := stMeasure_popState rs st f rest hag
        omega
      have hk2 : KeysOk (sweepAll rs (popState st f rest)) :=
        sweepAll_keysOk _ _ (popState_keysOk st f rest hag hk)
      cases hq : f == q.1 with
      | true =>
        have hfq : f = q.1 := by simpa using hq
        have hsome := hk f (by rw [hag]; exact List.mem_cons_self _ _)
        obtain ⟨b, hb⟩ := Option.isSome_iff_exists.mp hsome
        rw [runLoop_cons_lookup rs q n st f rest b hag hq hb]
        have hbneq : ¬ b = !q.2 := by
          intro hbe
          exact hneg ⟨hfq, by rw [hb, hbe]⟩
        rw [if_neg (by simpa using hbneq)]
        exact ih hk2 n hm
      | false =>
        rw [runLoop_cons_ne rs q n st f rest hag hq]
        exact ih hk2 n hm

theorem initState_keysOk (fc : FC) : KeysOk (initState fc) := by
  intro x hx
  obtain ⟨p, hp, rfl⟩ := List.mem_map.mp hx
  rw [lookupAL_isSome_iff]
  exact ⟨p.2, by simpa using List.mem_of_mem_filter hp⟩

/-- C1 restated through `runFC`: the work queue and Derived Facts Set are
seeded with exactly the initially-true fact symbols, and (with enough fuel,
which by C8 always exists) the verdict is YES iff at some point the query's
symbol is popped while its currently stored polarity is the negation of the
query's negation flag, and NO iff that never happens before the queue
empties. -/
theorem run_yes_iff_query_popped (fc : FC) (fuel : Nat)
    (hfuel : stMeasure fc.rules (initState fc) ≤ fuel) :
    ((initState fc).derived = (initState fc).agenda ∧
      ∀ s : Str, s ∈ (initState fc).agenda ↔ (s, true) ∈ fc.facts) ∧
    ((∃ tr fc', runFC fc fuel = some (.yes tr, fc')) ↔
      Entails fc.rules fc.query (initState fc)) ∧
    ((∃ fc', runFC fc fuel = some (.no, fc')) ↔
      ¬ Entails fc.rules fc.query (initState fc)) := by
  have hkeys := initState_keysOk fc
  have hloop : ∀ r st', runLoop fc.rules fc.query fuel (initState fc) = some (r, st') →
      runFC fc fuel = some (r, { fc with
        facts := st'.facts, derived_facts := st'.derived,
        entailments := st'.entailments }) := by
    intro r st' h
    unfold runFC
    rw [h]
    rfl
  refine ⟨⟨rfl, fun s => ?_⟩, ⟨?_, ?_⟩, ⟨?_, ?_⟩⟩
  · constructor
    · intro hs
      obtain ⟨p, hp, rfl⟩ := List.mem_map.mp hs
      have h2 := List.mem_filter.mp hp
      have hp2 : p.2 = true := by simpa using h2.2
      have : (p.1, p.2) ∈ fc.facts := by simpa using h2.1
      rw [hp2] at this
      exact this
    · intro hs
      exact List.mem_map.mpr ⟨(s, true), List.mem_filter.mpr ⟨hs, rfl⟩, rfl⟩
  · rintro ⟨tr, fc', hr⟩
    unfold runFC at hr
    obtain ⟨⟨r0, st'⟩, h1, h2⟩ := Option.map_eq_some'.mp hr
    have hr0 : r0 = .yes tr := congrArg Prod.fst h2
    subst hr0
    exact runLoop_yes_entails fc.rules fc.query fuel (initState fc) tr st' h1
  · intro hent
    obtain ⟨tr, st', hr⟩ :=
      entails_runLoop_yes fc.rules fc.query (initState fc) hent hkeys fuel hfuel
    exact ⟨tr, _, hloop _ _ hr⟩
  · rintro ⟨fc', hr⟩ hent
    obtain ⟨tr, st', hy⟩ :=
      entails_runLoop_yes fc.rules fc.query (initState fc) hent hkeys fuel hfuel
    unfold runFC at hr
    obtain ⟨⟨r0, st0⟩, h1, h2⟩ := Option.map_eq_some'.mp hr
    have hr0 : r0 = .no := congrArg Prod.fst h2
    subst hr0
    rw [hy] at h1
    simp at h1
  · intro hent
    have hsome := runLoop_isSome fc.rules fc.query fuel (initState fc) hfuel
    obtain ⟨⟨r, st'⟩, hr⟩ := Option.isSome_iff_exists.mp hsome
    cases r with
    | yes tr =>
      exact absurd (runLoop_yes_entails fc.rules fc.query fuel (initState fc) tr st' hr)
        hent
    | no => exact ⟨_, hloop _ _ hr⟩
    | keyError =>
      exact absurd (runLoop_no_keyError fc.rules fc.query fuel (initState fc) st' hkeys hr)
        id

/-- Closed instance of the C1 theorem on a concrete knowledge base
(`A`, `A ⇒ B`, query `B`) with concretely checked fuel. -/
theorem run_yes_iff_query_popped_witness :
    ((initState fcWa).derived = (initState fcWa).agenda ∧
      ∀ s : Str, s ∈ (initState fcWa).agenda ↔ (s, true) ∈ fcWa.facts) ∧
    ((∃ tr fc', runFC fcWa 10 = some (.yes tr, fc')) ↔
      Entails fcWa.rules fcWa.query (initState fcWa)) ∧
    ((∃ fc', runFC fcWa 10 = some (.no, fc')) ↔
      ¬ Entails fcWa.rules fcWa.query (initState fcWa)) :=
  run_yes_iff_query_popped fcWa 10 (by decide)

/-! ### C8: termination, monotonicity, single entry -/

theorem sweepDisjunct_derived_extend (c : Str) (st : EngineState) (d : Disjunct) :
    st.derived ⊆ (sweepDisjunct c st d).derived := by
  unfold sweepDisjunct
  split
  · split
    · exact fun a ha => ha
    · exact fun a ha => List.mem_append_left _ ha
  · exact fun a ha => ha

theorem sweepDisjunct_derived_nodup (c : Str) (st : EngineState) (d : Disjunct)
    (h : st.derived.Nodup) : (sweepDisjunct c st d).derived.Nodup := by
  unfold sweepDisjunct
  split
  · split
    · exact h
    · rename_i hmem
      refine List.Nodup.append h (List.nodup_singleton c) ?_
      intro a ha hac
      rw [List.mem_singleton] at hac
      subst hac
      exact hmem ha
  · exact h

theorem sweepAll_derived_extend (rs : Rules) (st : EngineState) :
    st.derived ⊆ (sweepAll rs st).derived :=
  @sweepAll_preserve (fun stx => st.derived ⊆ stx.derived) rs st
    (fun st' c d _ hsub _ ha => sweepDisjunct_derived_extend c st' d (hsub ha))
    (fun _ ha => ha)

theorem sweepAll_derived_nodup (rs : Rules) (st : EngineState)
    (h : st.derived.Nodup) : (sweepAll rs st).derived.Nodup :=
  @sweepAll_preserve (fun stx => stx.derived.Nodup) rs st
    (fun st' c d _ h' => sweepDisjunct_derived_nodup c st' d h') h

/-- C8: a single `run` invocation terminates — for fuel at least the measure
(queue length plus twice the not-yet-derived rule conclusions, finite and
bounded by the clause text) the loop delivers an answer; moreover a symbol
once in the Derived Facts Set is never removed for the rest of the call,
and when the fact keys are distinct each symbol enters the set at most once
(the final set is duplicate-free). -/
theorem run_terminates_monotone (fc : FC) (fuel : Nat)
    (hfuel : stMeasure fc.rules (initState fc) ≤ fuel) :
    ∃ r fc', runFC fc fuel = some (r, fc') ∧
      (initState fc).derived ⊆ fc'.derived_facts ∧
      ((fc.facts.map Prod.fst).Nodup → fc'.derived_facts.Nodup) := by
  have hsome := runLoop_isSome fc.rules fc.query fuel (initState fc) hfuel
  obtain ⟨⟨r, st'⟩, hr⟩ := Option.isSome_iff_exists.mp hsome
  refine ⟨r, _, by unfold runFC; rw [hr]; rfl, ?_, ?_⟩
  · exact @runLoop_state_preserve (fun stx => (initState fc).derived ⊆ stx.derived)
      fc.rules fc.query
      (fun st h a ha => sweepAll_derived_extend fc.rules st (h ha))
      (fun st f rest _ h => h)
      fuel (initState fc) r st' hr (fun _ ha => ha)
  · intro hnodup
    have hinit : (initState fc).derived.Nodup := by
      have hsub : ((fc.facts.filter (fun p => p.2)).map Prod.fst).Sublist
          (fc.facts.map Prod.fst) := (List.filter_sublist _).map Prod.fst
      exact hnodup.sublist hsub
    exact @runLoop_state_preserve (fun stx => stx.derived.Nodup)
      fc.rules fc.query
      (fun st h => sweepAll_derived_nodup fc.rules st h)
      (fun st f rest _ h => h)
      fuel (initState fc) r st' hr hinit

/-- Closed instance of the C8 theorem at a concrete knowledge base, with
the fuel bound checked concretely. -/
theorem run_terminates_monotone_witness :
    ∃ r fc', runFC fcWa 10 = some (r, fc') ∧
      (initState fcWa).derived ⊆ fc'.derived_facts ∧
      ((fcWa.facts.map Prod.fst).Nodup → fc'.derived_facts.Nodup) :=
  run_terminates_monotone fcWa 10 (by decide)

/-! ### C9: the loop raises no runtime error -/

/-- C9: once seeded, every popped symbol has a defined Fact Set polarity
(initial symbols are fact keys, derived symbols get their polarity stored at
the moment they are enqueued), so the polarity lookup of the query check
never raises and `run` can only terminate with YES or NO (or spin on fuel,
which C8 excludes). -/
theorem run_no_runtime_error : ∀ (fc : FC) (fuel : Nat), raisesKeyError fc fuel = false := by
  intro fc fuel
  unfold raisesKeyError
  cases hr : runFC fc fuel with
  | none => rfl
  | some p =>
    obtain ⟨r, fc'⟩ := p
    cases r with
    | yes tr => rfl
    | no => rfl
    | keyError =>
      exfalso
      unfold runFC at hr
      obtain ⟨⟨r0, st'⟩, h1, h2⟩ := Option.map_eq_some'.mp hr
      have hr0 : r0 = .keyError := congrArg Prod.fst h2
      subst hr0
      exact runLoop_no_keyError fc.rules fc.query fuel (initState fc) st'
        (initState_keysOk fc) h1

/-! ### C10: a query occurring only as a negated initial fact -/

theorem sweepAll_agenda_avoid (rs : Rules) (x : Str) (hx : x ∉ rs.map Prod.fst)
    (st : EngineState) (h : x ∉ st.agenda) : x ∉ (sweepAll rs st).agenda := by
  refine @sweepAll_preserve (fun stx => x ∉ stx.agenda) rs st
    (fun st' c d hmem h' => ?_) h
  unfold sweepDisjunct
  split
  · split
    · exact h'
    · intro hc
      simp only [List.mem_append, List.mem_singleton] at hc
      rcases hc with hc | rfl
      · exact h' hc
      · obtain ⟨ds, hds⟩ := hmem
        exact hx (List.mem_map.mpr ⟨(x, ds), hds, rfl⟩)
  · exact h'

theorem runLoop_avoid (rs : Rules) (q : Str × Bool) (hq : q.1 ∉ rs.map Prod.fst) :
    ∀ (fuel : Nat) (st : EngineState), q.1 ∉ st.agenda → stMeasure rs st ≤ fuel →
      ∃ st', runLoop rs q fuel st = some (.no, st') := by
  intro fuel
  induction fuel with
  | zero =>
    intro st h hfuel
    have hag : st.agenda = [] := by
      cases hs : st.agenda with
      | nil => rfl
      | cons f rest =>
        unfold stMeasure at hfuel
        rw [hs] at hfuel
        simp at hfuel
    exact ⟨st, runLoop_nil rs q 0 st hag⟩
  | succ n ih =>
    intro st h hfuel
    cases hag : st.agenda with
    | nil => exact ⟨st, runLoop_nil rs q _ st hag⟩
    | cons f rest =>
      have hf : f ≠ q.1 := by
        intro he
        rw [hag, he] at h
        exact h (List.mem_cons_self _ _)
      have hbq : (f == q.1) = false := by simpa using hf
      rw [runLoop_cons_ne rs q n st f rest hag hbq]
      refine ih (sweepAll rs (popState st f rest)) ?_ ?_
      · refine sweepAll_agenda_avoid rs q.1 hq _ ?_
        rw [popState_agenda]
        intro hmem
        rw [hag] at h
        exact h (List.mem_cons_of_mem _ hmem)
      · have h1 := sweepAll_measure rs (popState st f rest)
        have h2 := stMeasure_popState rs st f rest hag
        omega

/-- C10: when the query's symbol has only a `false` (negated) binding in the
initial Fact Set and concludes no rule, the verdict is NO for every query
polarity — negative initial facts are never seeded into the queue, no rule
ever pushes the symbol, so it is never popped for the query check. -/
theorem negated_only_fact_gives_no (fc : FC) (fuel : Nat)
    (hfact : ∀ b, (fc.query.1, b) ∈ fc.facts → b = false)
    (hrule : fc.query.1 ∉ fc.rules.map Prod.fst)
    (hfuel : stMeasure fc.rules (initState fc) ≤ fuel) :
    ∃ fc', runFC fc fuel = some (.no, fc') := by
  have hq : fc.query.1 ∉ (initState fc).agenda := by
    intro hm
    obtain ⟨p, hp, hp1⟩ := List.mem_map.mp hm
    have h2 := List.mem_filter.mp hp
    have hp2 : p.2 = true := by simpa using h2.2
    have hmem : (fc.query.1, true) ∈ fc.facts := by
      rw [← hp1, ← hp2]
      simpa using h2.1
    exact Bool.noConfusion (hfact true hmem)
  obtain ⟨st', hst⟩ := runLoop_avoid fc.rules fc.query hrule fuel (initState fc) hq hfuel
  exact ⟨_, by unfold runFC; rw [hst]; rfl⟩

/-- Closed instance of the C10 theorem: TELL `~A`, ASK `~A` still answers
NO, with all hypotheses checked concretely. -/
theorem negated_only_fact_gives_no_witness :
    ∃ fc', runFC fcWc 5 = some (.no, fc') :=
  negated_only_fact_gives_no fcWc 5 (by decide) (by decide) (by decide)

/-! ### C6: running the engine twice -/

/-- C6 counterexample: on the knowledge base built from TELL
`A; ~B => Q; A => B` and ASK `~Q`, the first `run` invocation answers YES
with trace `A, Q`, but a second invocation of `run` on the same constructed
object (whose fact map and trace keep the first call's mutations) answers
NO — the verdict, and hence also the trace, of the second invocation
differs from the first. -/
theorem run_twice_on_same_object_differs :
    parse_kb_and_query (strOf "A; ~B => Q; A => B") (strOf "~Q") = some fcA ∧
    runFC fcA 10 = some (.yes [strOf "A", strOf "Q"], fcB) ∧
    runFC fcB 10 = some (.no, fcC) ∧
    RunResult.yes [strOf "A", strOf "Q"] ≠ RunResult.no := by
  exact ⟨by decide, by decide, by decide, by decide⟩

/-- C6 amended: running the engine twice on the same immutable Rule Set and
initial Fact Set yields the same verdict and the same trace provided the
transient object state (Fact Set polarities and the accumulated trace) is
rebuilt before the second invocation: the outcome of `run` depends only on
the rules, the fact map, the query and the accumulated trace — the stored
`derived_facts` field is reset by `run` and is irrelevant. -/
theorem run_deterministic_on_rebuilt_state (fc1 fc2 : FC) (fuel : Nat)
    (hr : fc1.rules = fc2.rules) (hf : fc1.facts = fc2.facts)
    (hq : fc1.query = fc2.query) (he : fc1.entailments = fc2.entailments) :
    runFC fc1 fuel = runFC fc2 fuel := by
  obtain ⟨r1, f1, q1, d1, e1⟩ := fc1
  obtain ⟨r2, f2, q2, d2, e2⟩ := fc2
  obtain rfl : r1 = r2 := hr
  obtain rfl : f1 = f2 := hf
  obtain rfl : q1 = q2 := hq
  obtain rfl : e1 = e2 := he
  rfl

/-- Closed instance of the amended C6 theorem: two objects differing only in
the transient `derived_facts` field run identically. -/
theorem run_deterministic_on_rebuilt_state_witness :
    runFC fcA 10 = runFC { fcA with derived_facts := [strOf "Z"] } 10 :=
  run_deterministic_on_rebuilt_state fcA { fcA with derived_facts := [strOf "Z"] } 10
    rfl rfl rfl rfl

end FwdChain
